import Mathlib

/-!
Verification of the `ghostcfg` configuration-file model
(`src/ghostcfg/config_io.py`): a structure-preserving parser and
serializer for a line-oriented `key = value` configuration file.

Strings are embedded as `List Char`.  Python string primitives used by
the source (`str.strip`, `str.splitlines`, `str.partition`,
`str.startswith`/`endswith`, `"\n".join`) are modelled faithfully below.
The `path` and `_backed_up` fields of the Python `GhosttyConfig`
dataclass are filesystem/session concerns not touched by any in-memory
operation modelled here, so the embedded record keeps only `entries`.
-/

namespace GhostCfg

abbrev Str := List Char

/-- Characters stripped by Python `str.strip()` (characters `c` with
`c.isspace()` true in Python): ASCII whitespace, the C1 separator
controls, NEL, and the Unicode space characters. -/
def isPySpace (c : Char) : Bool :=
  c = ' ' || c = '\t' || c = '\n' || c = '\x0b' || c = '\x0c' || c = '\r' ||
  c = '\x1c' || c = '\x1d' || c = '\x1e' || c = '\x1f' ||
  c = '\x85' || c = '\xa0' || c = ' ' ||
  c = ' ' || c = ' ' || c = ' ' || c = ' ' ||
  c = ' ' || c = ' ' || c = ' ' || c = ' ' ||
  c = ' ' || c = ' ' || c = ' ' ||
  c = ' ' || c = ' ' || c = ' ' || c = ' ' || c = '　'

/-- Python `s.lstrip()`. -/
def lstrip (s : Str) : Str := s.dropWhile isPySpace

/-- Python `s.rstrip()`. -/
def rstrip (s : Str) : Str := (s.reverse.dropWhile isPySpace).reverse

/-- Python `s.strip()`. -/
def strip (s : Str) : Str := rstrip (lstrip s)

/-- Line-boundary characters of Python `str.splitlines`. -/
def isLineBoundary (c : Char) : Bool :=
  c = '\n' || c = '\r' || c = '\x0b' || c = '\x0c' ||
  c = '\x1c' || c = '\x1d' || c = '\x1e' ||
  c = '\x85' || c = ' ' || c = ' '

/-- Worker for `splitlines`; `cur` holds the characters of the current
line in reverse.  `"\r\n"` counts as a single boundary; a final line
fragment without terminator is emitted, a trailing terminator adds no
empty final line (Python `str.splitlines` semantics). -/
def splitlinesAux (cur : Str) : Str → List Str
  | [] => if cur = [] then [] else [cur.reverse]
  | [c] =>
    if isLineBoundary c then cur.reverse :: splitlinesAux [] []
    else splitlinesAux (c :: cur) []
  | c :: c2 :: rest =>
    if isLineBoundary c then
      if c = '\x0d' ∧ c2 = '\n' then cur.reverse :: splitlinesAux [] rest
      else cur.reverse :: splitlinesAux [] (c2 :: rest)
    else splitlinesAux (c :: cur) (c2 :: rest)

/-- Python `text.splitlines()`. -/
def splitlines (s : Str) : List Str := splitlinesAux [] s

/-- Python `s.partition("=")` restricted to the two components around the
first `'='`; when no `'='` occurs the whole string lands in the first
component (the parser only uses it after checking `"=" in stripped`). -/
def breakEq : Str → Str × Str
  | [] => ([], [])
  | c :: rest =>
    if c = '=' then ([], rest)
    else ((breakEq rest).1.cons c, (breakEq rest).2)

/-- One line/entry of the config file (`ConfigEntry` in the source,
whose `kind` field ranges over exactly `"option"`, `"comment"`,
`"blank"`). -/
inductive ConfigEntry : Type
  | option (key : Str) (value : Str) : ConfigEntry
  | comment (raw : Str) : ConfigEntry
  | blank (raw : Str) : ConfigEntry
deriving DecidableEq, Repr

/-- Parsed config preserving structure (`GhosttyConfig` in the source,
restricted to its in-memory `entries` field). -/
structure GhosttyConfig : Type where
  entries : List ConfigEntry
deriving DecidableEq, Repr

/-- The match performed by the loops of `get`/`get_all`:
`entry.kind == "option" and entry.key == key`, yielding the value. -/
def matchOpt (key : Str) : ConfigEntry → Option Str
  | .option k v => if k = key then some v else none
  | _ => none

/-- `GhosttyConfig.get`: scan `reversed(self.entries)`, return the first
matching option value (last occurrence wins); `None` if absent. -/
def get (c : GhosttyConfig) (key : Str) : Option Str :=
  c.entries.reverse.findSome? (matchOpt key)

/-- `GhosttyConfig.get_all`: all values for `key` in forward order. -/
def get_all (c : GhosttyConfig) (key : Str) : List Str :=
  c.entries.filterMap (matchOpt key)

/-- Loop body of `GhosttyConfig.set`: mutate the first matching option
entry in forward order, or append a fresh one at the end. -/
def setEntries (key value : Str) : List ConfigEntry → List ConfigEntry
  | [] => [ConfigEntry.option key value]
  | ConfigEntry.option k v :: rest =>
    if k = key then ConfigEntry.option k value :: rest
    else ConfigEntry.option k v :: setEntries key value rest
  | e :: rest => e :: setEntries key value rest

/-- `GhosttyConfig.set`. -/
def set (c : GhosttyConfig) (key value : Str) : GhosttyConfig :=
  ⟨setEntries key value c.entries⟩

/-- `GhosttyConfig.remove`: drop every option entry whose key matches. -/
def remove (c : GhosttyConfig) (key : Str) : GhosttyConfig :=
  ⟨c.entries.filter fun e => !(matchOpt key e).isSome⟩

/-- `GhosttyConfig.set_repeatable`: `remove` then append one option
entry per value, in order (the Python `for`-loop of appends). -/
def set_repeatable (c : GhosttyConfig) (key : Str) (values : List Str) :
    GhosttyConfig :=
  ⟨values.foldl (fun es v => es ++ [ConfigEntry.option key v]) (remove c key).entries⟩

/-- The quoting test of the parser: the candidate value starts and ends
with `'"'`, or starts and ends with an apostrophe (Python
`startswith`/`endswith`, which are both true of a one-character
candidate consisting of a single quote character). -/
def isQuoted (v : Str) : Bool :=
  (v.head? = some '"' && v.getLast? = some '"') ||
  (v.head? = some '\'' && v.getLast? = some '\'')

/-- Python `value[1:-1]`. -/
def unquote (v : Str) : Str := (v.drop 1).dropLast

/-- Candidate-value processing of the parser: strip, then remove one
outer quote pair when present. -/
def parseValue (b : Str) : Str :=
  if isQuoted (strip b) then unquote (strip b) else strip b

/-- Value normalization of `to_text`: wrap in double quotes when the
value has leading/trailing whitespace or is empty
(`if value != value.strip() or value == ""`). -/
def serializeValue (v : Str) : Str :=
  if v ≠ strip v ∨ v = [] then '"' :: (v ++ ['"']) else v

/-- The single line `to_text` emits for an entry: `raw` verbatim for
comments and blanks, `f"{key} = {value}"` with quoting normalization
for options. -/
def entryLine : ConfigEntry → Str
  | .comment raw => raw
  | .blank raw => raw
  | .option k v => k ++ (' ' :: '=' :: ' ' :: serializeValue v)

/-- Python `"\n".join(lines)`. -/
def joinNL : List Str → Str
  | [] => []
  | [l] => l
  | l :: l2 :: ls => l ++ '\n' :: joinNL (l2 :: ls)

/-- `GhosttyConfig.to_text`: join the per-entry lines with `"\n"`, then
append one trailing newline when the result is non-empty and does not
already end with one. -/
def to_text (c : GhosttyConfig) : Str :=
  if joinNL (c.entries.map entryLine) ≠ [] ∧
      (joinNL (c.entries.map entryLine)).getLast? ≠ some '\n' then
    joinNL (c.entries.map entryLine) ++ ['\n']
  else joinNL (c.entries.map entryLine)

/-- Per-line classification of `parse_config`: blank when the stripped
line is empty, comment when it starts with `'#'`, option when it
contains `'='` (split at the first `'='`, both sides stripped, one outer
quote pair removed from the value), comment fallback otherwise. -/
def parseLine (line : Str) : ConfigEntry :=
  if strip line = [] then ConfigEntry.blank line
  else if (strip line).head? = some '#' then ConfigEntry.comment line
  else if (strip line).contains '=' then
    ConfigEntry.option (strip (breakEq (strip line)).1)
      (parseValue (breakEq (strip line)).2)
  else ConfigEntry.comment line

/-- `parse_config`: classify each physical line independently. -/
def parse_config (text : Str) : GhosttyConfig :=
  ⟨(splitlines text).map parseLine⟩

/-- Keys of the option entries of a document (the comprehension inside
`modified_keys`). -/
def optionKeys (c : GhosttyConfig) : List Str :=
  c.entries.filterMap fun e =>
    match e with
    | .option k _ => some k
    | _ => none

/-- `GhosttyConfig.modified_keys`: keys present as options in either
document whose `get_all` lists differ. -/
def modified_keys (c original : GhosttyConfig) : Finset Str :=
  ((optionKeys c).toFinset ∪ (optionKeys original).toFinset).filter
    fun k => get_all c k ≠ get_all original k

/-! ### Helper lemmas: `dropWhile`, `lstrip`, `rstrip`, `strip` -/

theorem head?_dropWhile_not {p : Char → Bool} :
    ∀ {l : Str} {a : Char}, (l.dropWhile p).head? = some a → p a = false := by
  intro l
  induction l with
  | nil => intro a h; simp [List.dropWhile] at h
  | cons c t ih =>
    intro a h
    rw [List.dropWhile_cons] at h
    cases hc : p c with
    | true => rw [hc] at h; simp only [if_true] at h; exact ih h
    | false =>
      rw [hc] at h
      simp only [Bool.false_eq_true, if_false, List.head?_cons, Option.some.injEq] at h
      rw [← h]
      exact hc

theorem getLast?_some_mem {α : Type} : ∀ {l : List α} {a : α}, l.getLast? = some a → a ∈ l := by
  intro l
  induction l with
  | nil => intro a h; simp at h
  | cons c t ih =>
    intro a h
    rw [List.getLast?_cons] at h
    cases ht : t.getLast? with
    | none => simp [ht] at h; simp [h]
    | some b =>
      simp [ht] at h
      subst h
      exact List.mem_cons_of_mem _ (ih ht)

theorem getLast?_some_decomp {α : Type} : ∀ {l : List α} {a : α},
    l.getLast? = some a → ∃ l2, l = l2 ++ [a] := by
  intro l
  induction l with
  | nil => intro a h; simp at h
  | cons c t ih =>
    intro a h
    rw [List.getLast?_cons] at h
    cases ht : t.getLast? with
    | none =>
      simp [ht] at h
      rw [List.getLast?_eq_none_iff] at ht
      exact ⟨[], by simp [ht, h]⟩
    | some b =>
      simp [ht] at h
      subst h
      obtain ⟨l2, hl2⟩ := ih ht
      exact ⟨c :: l2, by simp [hl2]⟩

theorem head?_some_mem {l : Str} {a : Char} (h : l.head? = some a) : a ∈ l := by
  cases l with
  | nil => simp at h
  | cons c t => simp at h; simp [h]

theorem mem_lstrip {l : Str} {a : Char} (h : a ∈ lstrip l) : a ∈ l :=
  (List.dropWhile_sublist _).mem h

theorem mem_rstrip {l : Str} {a : Char} (h : a ∈ rstrip l) : a ∈ l := by
  unfold rstrip at h
  rw [List.mem_reverse] at h
  exact List.mem_reverse.mp ((List.dropWhile_sublist _).mem h)

theorem mem_strip {l : Str} {a : Char} (h : a ∈ strip l) : a ∈ l :=
  mem_lstrip (mem_rstrip h)

theorem lstrip_nil : lstrip [] = [] := rfl

theorem rstrip_nil : rstrip [] = [] := rfl

theorem strip_nil : strip [] = [] := rfl

theorem lstrip_cons_not_space {c : Char} {l : Str} (h : isPySpace c = false) :
    lstrip (c :: l) = c :: l := by
  unfold lstrip
  rw [List.dropWhile_cons, h]
  simp

theorem rstrip_concat_space {c : Char} {l : Str} (h : isPySpace c = true) :
    rstrip (l ++ [c]) = rstrip l := by
  unfold rstrip
  rw [List.reverse_append]
  simp [List.dropWhile_cons, h]

theorem rstrip_concat_not_space {c : Char} {l : Str} (h : isPySpace c = false) :
    rstrip (l ++ [c]) = l ++ [c] := by
  unfold rstrip
  rw [List.reverse_append]
  simp [List.dropWhile_cons, h]

/-- `rstrip l` is an initial segment of `l`; the removed tail is all space. -/
theorem rstrip_decomp (l : Str) :
    ∃ t, l = rstrip l ++ t ∧ ∀ c ∈ t, isPySpace c = true := by
  refine ⟨(l.reverse.takeWhile isPySpace).reverse, ?_, ?_⟩
  · calc l = l.reverse.reverse := (l.reverse_reverse).symm
      _ = (l.reverse.takeWhile isPySpace ++ l.reverse.dropWhile isPySpace).reverse := by
          rw [List.takeWhile_append_dropWhile]
      _ = (l.reverse.dropWhile isPySpace).reverse ++ (l.reverse.takeWhile isPySpace).reverse := by
          rw [List.reverse_append]
      _ = rstrip l ++ (l.reverse.takeWhile isPySpace).reverse := rfl
  · intro c hc
    rw [List.mem_reverse] at hc
    exact List.mem_takeWhile_imp hc

theorem head?_lstrip_not_space {l : Str} {a : Char}
    (h : (lstrip l).head? = some a) : isPySpace a = false :=
  head?_dropWhile_not h

theorem getLast?_rstrip_not_space {l : Str} {a : Char}
    (h : (rstrip l).getLast? = some a) : isPySpace a = false := by
  unfold rstrip at h
  rw [List.getLast?_reverse] at h
  exact head?_dropWhile_not h

theorem head?_rstrip {l : Str} {a : Char} (h : (rstrip l).head? = some a) :
    l.head? = some a := by
  obtain ⟨t, hl, -⟩ := rstrip_decomp l
  rw [hl, List.head?_append, h]
  rfl

theorem head?_strip_not_space {l : Str} {a : Char}
    (h : (strip l).head? = some a) : isPySpace a = false :=
  head?_lstrip_not_space (head?_rstrip h)

theorem getLast?_strip_not_space {l : Str} {a : Char}
    (h : (strip l).getLast? = some a) : isPySpace a = false :=
  getLast?_rstrip_not_space h

theorem rstrip_eq_self_of_getLast {l : Str} {a : Char}
    (hl : l.getLast? = some a) (ha : isPySpace a = false) : rstrip l = l := by
  obtain ⟨l2, rfl⟩ := getLast?_some_decomp hl
  exact rstrip_concat_not_space ha

theorem strip_eq_self_of_ends {l : Str} {a b : Char}
    (h1 : l.head? = some a) (ha : isPySpace a = false)
    (h2 : l.getLast? = some b) (hb : isPySpace b = false) : strip l = l := by
  cases l with
  | nil => simp at h1
  | cons c t =>
    simp only [List.head?_cons, Option.some.injEq] at h1
    subst h1
    unfold strip
    rw [lstrip_cons_not_space ha]
    exact rstrip_eq_self_of_getLast h2 hb

theorem head?_strip_lstrip {l : Str} {a : Char} (h : (strip l).head? = some a) :
    (lstrip l).head? = some a := by
  have h2 : (rstrip (lstrip l)).head? = some a := h
  exact head?_rstrip h2

theorem strip_idem (l : Str) : strip (strip l) = strip l := by
  cases hs : (strip l).head? with
  | none =>
    rw [List.head?_eq_none_iff] at hs
    rw [hs, strip_nil]
  | some a =>
    cases hg : (strip l).getLast? with
    | none =>
      rw [List.getLast?_eq_none_iff] at hg
      rw [hg, strip_nil]
    | some b =>
      exact strip_eq_self_of_ends hs
        (head?_lstrip_not_space (head?_strip_lstrip hs))
        hg (getLast?_strip_not_space hg)

theorem lstrip_eq_self_of_strip {l : Str} (h : strip l = l) : lstrip l = l := by
  have h1 : (lstrip l).length ≤ l.length := (List.dropWhile_sublist _).length_le
  have h2 : (strip l).length ≤ (lstrip l).length := by
    unfold strip rstrip
    calc ((lstrip l).reverse.dropWhile isPySpace).reverse.length
        = ((lstrip l).reverse.dropWhile isPySpace).length := by rw [List.length_reverse]
      _ ≤ (lstrip l).reverse.length := (List.dropWhile_sublist _).length_le
      _ = (lstrip l).length := by rw [List.length_reverse]
  rw [h] at h2
  exact (List.dropWhile_sublist _).eq_of_length (Nat.le_antisymm h1 h2)

theorem rstrip_eq_self_of_strip {l : Str} (h : strip l = l) : rstrip l = l := by
  have := lstrip_eq_self_of_strip h
  unfold strip at h
  rw [this] at h
  exact h

theorem strip_concat_space {k : Str} {c : Char} (hk : strip k = k)
    (hc : isPySpace c = true) : strip (k ++ [c]) = k := by
  cases k with
  | nil =>
    unfold strip lstrip
    simp [List.dropWhile_cons, hc, rstrip_nil]
  | cons a t =>
    have ha : isPySpace a = false := by
      have : ((a : Char) :: t).head? = some a := by simp
      rw [← hk] at this
      exact head?_strip_not_space this
    unfold strip
    rw [show ((a : Char) :: t) ++ [c] = a :: (t ++ [c]) by simp,
      lstrip_cons_not_space ha,
      show (a : Char) :: (t ++ [c]) = (a :: t) ++ [c] by simp,
      rstrip_concat_space hc]
    exact rstrip_eq_self_of_strip hk

/-! ### Helper lemmas: `splitlines` and joins -/

/-- No character of the line is a `splitlines` boundary. -/
def bdFree (l : Str) : Prop := ∀ c ∈ l, isLineBoundary c = false

/-- Each physical line, written with its terminating newline
(the shape of a text "consisting of lines"). -/
def joinTerm (lines : List Str) : Str :=
  (lines.map (fun l => l ++ ['\n'])).join

theorem splitlinesAux_cons (cur : Str) (c : Char) (rest : Str) :
    splitlinesAux cur (c :: rest) =
      if isLineBoundary c then
        cur.reverse ::
          splitlinesAux []
            (if c = '\x0d' ∧ rest.head? = some '\n' then rest.tail else rest)
      else splitlinesAux (c :: cur) rest := by
  cases rest with
  | nil => simp [splitlinesAux]
  | cons c2 rest2 =>
    by_cases hb : isLineBoundary c = true
    · by_cases hc : c = '\x0d' ∧ c2 = '\n'
      · simp [splitlinesAux, hb, hc.1, hc.2]
      · have hc2 : ¬(c = '\x0d' ∧ (c2 :: rest2).head? = some '\n') := by
          simpa using hc
        rw [if_pos hb, if_neg hc2]
        simp [splitlinesAux, hb, hc]
    · simp [splitlinesAux, hb]

theorem splitlinesAux_newline (cur : Str) (rest : Str) :
    splitlinesAux cur ('\n' :: rest) = cur.reverse :: splitlinesAux [] rest := by
  rw [splitlinesAux_cons]
  have h1 : isLineBoundary '\n' = true := by decide
  have h2 : ¬('\n' = '\x0d' ∧ rest.head? = some '\n') := by
    rintro ⟨h, -⟩; exact absurd h (by decide)
  rw [if_pos h1, if_neg h2]

theorem splitlinesAux_chunk {l : Str} (hl : bdFree l) :
    ∀ (cur s : Str), splitlinesAux cur (l ++ s) = splitlinesAux (l.reverse ++ cur) s := by
  induction l with
  | nil => intro cur s; simp
  | cons c t ih =>
    intro cur s
    have hc : isLineBoundary c = false := hl c (by simp)
    have ht : bdFree t := fun d hd => hl d (by simp [hd])
    rw [List.cons_append, splitlinesAux_cons, if_neg (by simp [hc]), ih ht]
    simp

theorem splitlines_joinTerm {lines : List Str} (h : ∀ l ∈ lines, bdFree l) :
    splitlines (joinTerm lines) = lines := by
  induction lines with
  | nil => rfl
  | cons l ls ih =>
    have hl : bdFree l := h l (by simp)
    have hls : ∀ m ∈ ls, bdFree m := fun m hm => h m (by simp [hm])
    have ihv := ih hls
    unfold splitlines at ihv ⊢
    rw [show joinTerm (l :: ls) = l ++ ('\n' :: joinTerm ls) by
          simp [joinTerm, List.join]]
    rw [splitlinesAux_chunk hl, splitlinesAux_newline]
    simp [ihv]

theorem splitlinesAux_bdFree :
    ∀ (n : Nat) (s cur : Str), s.length ≤ n →
      (∀ c ∈ cur, isLineBoundary c = false) →
      ∀ l ∈ splitlinesAux cur s, bdFree l := by
  intro n
  induction n with
  | zero =>
    intro s cur hlen hcur l hl
    have hs : s = [] := List.length_eq_zero.mp (Nat.le_zero.mp hlen)
    subst hs
    unfold splitlinesAux at hl
    by_cases h : cur = []
    · simp [h] at hl
    · rw [if_neg h] at hl
      simp at hl
      subst hl
      intro c hc
      exact hcur c (List.mem_reverse.mp hc)
  | succ n ih =>
    intro s cur hlen hcur l hl
    cases s with
    | nil => exact ih [] cur (by simp) hcur l hl
    | cons c rest =>
      rw [splitlinesAux_cons] at hl
      simp only [List.length_cons, Nat.succ_le_succ_iff] at hlen
      by_cases hb : isLineBoundary c = true
      · rw [if_pos hb] at hl
        rcases List.mem_cons.mp hl with rfl | hl2
        · intro d hd
          exact hcur d (List.mem_reverse.mp hd)
        · by_cases hp : c = '\x0d' ∧ rest.head? = some '\n'
          · rw [if_pos hp] at hl2
            refine ih rest.tail [] ?_ (by simp) l hl2
            calc rest.tail.length ≤ rest.length := by
                  rw [List.length_tail]; omega
              _ ≤ n := hlen
          · rw [if_neg hp] at hl2
            exact ih rest [] hlen (by simp) l hl2
      · rw [if_neg hb] at hl
        refine ih rest (c :: cur) hlen ?_ l hl
        intro d hd
        rcases List.mem_cons.mp hd with rfl | hd2
        · exact Bool.not_eq_true _ |>.mp hb
        · exact hcur d hd2

theorem splitlines_bdFree (s : Str) : ∀ l ∈ splitlines s, bdFree l :=
  splitlinesAux_bdFree s.length s [] (Nat.le_refl _) (by simp)

theorem joinNL_concat_newline :
    ∀ {ls : List Str}, ls ≠ [] → joinNL ls ++ ['\n'] = joinTerm ls := by
  intro ls
  induction ls with
  | nil => intro h; exact absurd rfl h
  | cons l ls2 ih =>
    intro _
    cases ls2 with
    | nil => simp [joinNL, joinTerm, List.join]
    | cons m ls3 =>
      have := ih (by simp)
      rw [show joinNL (l :: m :: ls3) = l ++ '\n' :: joinNL (m :: ls3) from rfl]
      rw [show joinTerm (l :: m :: ls3) = (l ++ ['\n']) ++ joinTerm (m :: ls3) by
            simp [joinTerm, List.join]]
      simp only [List.cons_append, List.append_assoc, List.cons_append]
      rw [← this]
      simp

theorem joinNL_getLast? :
    ∀ {ls : List Str} {lst : Str}, ls.getLast? = some lst → lst ≠ [] →
      (joinNL ls).getLast? = lst.getLast? := by
  intro ls
  induction ls with
  | nil => intro lst h _; simp at h
  | cons l ls2 ih =>
    intro lst h hne
    cases ls2 with
    | nil =>
      simp [List.getLast?_cons] at h
      subst h
      rfl
    | cons m ls3 =>
      have h2 : (m :: ls3).getLast? = some lst := by
        rw [← List.getLast?_cons_cons (a := l)]
        exact h
      have h3 := ih h2 hne
      rw [show joinNL (l :: m :: ls3) = l ++ '\n' :: joinNL (m :: ls3) from rfl]
      rw [List.getLast?_append]
      have h4 : ('\n' :: joinNL (m :: ls3)).getLast? = lst.getLast? := by
        cases hj : joinNL (m :: ls3) with
        | nil => rw [hj] at h3; simp at h3; exact absurd (List.getLast?_eq_none_iff.mp h3.symm) hne
        | cons x xs =>
          rw [List.getLast?_cons_cons]
          rw [hj] at h3
          exact h3
      rw [h4]
      cases hlst : lst.getLast? with
      | none => exact absurd (List.getLast?_eq_none_iff.mp hlst) hne
      | some d => rfl

theorem joinNL_ne_nil {ls : List Str} {lst : Str}
    (h : ls.getLast? = some lst) (hne : lst ≠ []) : joinNL ls ≠ [] := by
  intro hj
  have := joinNL_getLast? h hne
  rw [hj] at this
  simp at this
  exact hne (List.getLast?_eq_none_iff.mp this.symm)

/-! ### Helper lemmas: `breakEq` -/

theorem breakEq_decomp :
    ∀ {s : Str}, '=' ∈ s →
      s = (breakEq s).1 ++ '=' :: (breakEq s).2 ∧ '=' ∉ (breakEq s).1 := by
  intro s
  induction s with
  | nil => intro h; simp at h
  | cons c t ih =>
    intro h
    by_cases hc : c = '='
    · subst hc
      simp [breakEq]
    · have ht : '=' ∈ t := by
        rcases List.mem_cons.mp h with h1 | h1
        · exact absurd h1.symm hc
        · exact h1
      obtain ⟨hd, hn⟩ := ih ht
      constructor
      · rw [show breakEq (c :: t) = ((breakEq t).1.cons c, (breakEq t).2) by
              simp [breakEq, hc]]
        simpa using congrArg (c :: ·) hd
      · rw [show breakEq (c :: t) = ((breakEq t).1.cons c, (breakEq t).2) by
              simp [breakEq, hc]]
        intro hm
        rcases List.mem_cons.mp hm with h1 | h1
        · exact hc h1.symm
        · exact hn h1

theorem breakEq_reassemble {a : Str} (ha : '=' ∉ a) (b : Str) :
    breakEq (a ++ '=' :: b) = (a, b) := by
  induction a with
  | nil => simp [breakEq]
  | cons c t ih =>
    have hc : ¬(c = '=') := fun h => ha (by simp [h])
    have ht : '=' ∉ t := fun h => ha (by simp [h])
    simp [breakEq, hc, ih ht]

/-! ### Helper lemmas: accessors and mutators -/

theorem findSome?_reverse_eq_getLast?_filterMap (f : ConfigEntry → Option Str) :
    ∀ es : List ConfigEntry, es.reverse.findSome? f = (es.filterMap f).getLast? := by
  intro es
  induction es with
  | nil => rfl
  | cons e t ih =>
    rw [List.reverse_cons, List.findSome?_append, ih, List.filterMap_cons]
    cases hf : f e with
    | none => simp [List.findSome?_cons, hf]
    | some v =>
      rw [List.getLast?_cons]
      cases hg : (t.filterMap f).getLast? with
      | none => simp [List.findSome?_cons, hf, hg]
      | some w => simp [List.findSome?_cons, hf, hg]

theorem matchOpt_option_self (k v : Str) :
    matchOpt k (ConfigEntry.option k v) = some v := by
  simp [matchOpt]

theorem matchOpt_none_option {k k2 v : Str} (h : matchOpt k (ConfigEntry.option k2 v) = none) :
    k2 ≠ k := by
  intro he
  subst he
  simp [matchOpt] at h

theorem filterMap_none_of_all {f : ConfigEntry → Option Str} {es : List ConfigEntry}
    (h : ∀ e ∈ es, f e = none) : es.filterMap f = [] :=
  List.filterMap_eq_nil.mpr h

theorem setEntries_no_match {k : Str} (v : Str) :
    ∀ {es : List ConfigEntry}, (∀ e ∈ es, matchOpt k e = none) →
      setEntries k v es = es ++ [ConfigEntry.option k v] := by
  intro es
  induction es with
  | nil => intro _; rfl
  | cons e t ih =>
    intro h
    have he := h e (by simp)
    have ht : ∀ e2 ∈ t, matchOpt k e2 = none := fun e2 h2 => h e2 (by simp [h2])
    cases e with
    | option k2 v2 =>
      have hne : ¬(k2 = k) := matchOpt_none_option he
      simp [setEntries, hne, ih ht]
    | comment raw => simp [setEntries, ih ht]
    | blank raw => simp [setEntries, ih ht]

theorem setEntries_first {k : Str} (v : Str) :
    ∀ {es1 : List ConfigEntry} (w : Str) (es2 : List ConfigEntry),
      (∀ e ∈ es1, matchOpt k e = none) →
      setEntries k v (es1 ++ ConfigEntry.option k w :: es2) =
        es1 ++ ConfigEntry.option k v :: es2 := by
  intro es1
  induction es1 with
  | nil => intro w es2 _; simp [setEntries]
  | cons e t ih =>
    intro w es2 h
    have he := h e (by simp)
    have ht : ∀ e2 ∈ t, matchOpt k e2 = none := fun e2 h2 => h e2 (by simp [h2])
    cases e with
    | option k2 v2 =>
      have hne : ¬(k2 = k) := matchOpt_none_option he
      simp [setEntries, hne, ih w es2 ht]
    | comment raw => simp [setEntries, ih w es2 ht]
    | blank raw => simp [setEntries, ih w es2 ht]

/-- Every entry list either has no option entry for `k`, or splits at the
first such entry. -/
theorem first_match_decomp (k : Str) :
    ∀ es : List ConfigEntry,
      (∀ e ∈ es, matchOpt k e = none) ∨
      ∃ es1 w es2, es = es1 ++ ConfigEntry.option k w :: es2 ∧
        (∀ e ∈ es1, matchOpt k e = none) := by
  intro es
  induction es with
  | nil => exact Or.inl (by simp)
  | cons e t ih =>
    cases hf : matchOpt k e with
    | some v =>
      refine Or.inr ⟨[], v, t, ?_, by simp⟩
      cases e with
      | option k2 v2 =>
        simp only [matchOpt] at hf
        by_cases hk : k2 = k
        · subst hk
          simp at hf
          simp [hf]
        · simp [hk] at hf
      | comment raw => simp [matchOpt] at hf
      | blank raw => simp [matchOpt] at hf
    | none =>
      rcases ih with h1 | ⟨es1, w, es2, hdec, hcl⟩
      · refine Or.inl ?_
        intro e2 h2
        rcases List.mem_cons.mp h2 with rfl | h3
        · exact hf
        · exact h1 e2 h3
      · refine Or.inr ⟨e :: es1, w, es2, by simp [hdec], ?_⟩
        intro e2 h2
        rcases List.mem_cons.mp h2 with rfl | h3
        · exact hf
        · exact hcl e2 h3

theorem foldl_append_entries (k : Str) :
    ∀ (vs : List Str) (init : List ConfigEntry),
      vs.foldl (fun es v => es ++ [ConfigEntry.option k v]) init =
        init ++ vs.map (ConfigEntry.option k) := by
  intro vs
  induction vs with
  | nil => intro init; simp
  | cons v t ih =>
    intro init
    rw [List.foldl_cons, ih]
    simp

theorem get_all_nil_of_not_mem_optionKeys {c : GhosttyConfig} {k : Str}
    (h : k ∉ optionKeys c) : get_all c k = [] := by
  unfold get_all
  refine filterMap_none_of_all ?_
  intro e he
  cases e with
  | option k2 v =>
    unfold matchOpt
    by_cases hk : k2 = k
    · subst hk
      exfalso
      apply h
      unfold optionKeys
      exact List.mem_filterMap.mpr ⟨ConfigEntry.option k2 v, he, rfl⟩
    · simp [hk]
  | comment raw => rfl
  | blank raw => rfl

/-! ### Core lemmas about `parseLine` -/

/-- The emitted form of the value reparses to the value itself: holds
unconditionally for values that serialize quoted, and for unquoted ones
exactly when they do not themselves look quoted. -/
def valueOK : ConfigEntry → Bool
  | .option _ v => if strip v = v ∧ v ≠ [] then !isQuoted v else true
  | _ => true

theorem valueOK_option {k v : Str} (h : valueOK (ConfigEntry.option k v) = true) :
    v = [] ∨ strip v ≠ v ∨ isQuoted v = false := by
  rw [show valueOK (ConfigEntry.option k v) =
        (if strip v = v ∧ v ≠ [] then !isQuoted v else true) from rfl] at h
  by_cases hc : strip v = v ∧ v ≠ []
  · rw [if_pos hc] at h
    right; right
    simpa using h
  · rcases not_and_or.mp hc with h1 | h1
    · exact Or.inr (Or.inl h1)
    · exact Or.inl (not_not.mp h1)

theorem serializeValue_quoted {v : Str} (h : v = [] ∨ strip v ≠ v) :
    serializeValue v = '"' :: (v ++ ['"']) := by
  unfold serializeValue
  rw [if_pos]
  rcases h with h | h
  · exact Or.inr h
  · exact Or.inl (fun he => h he.symm)

theorem serializeValue_plain {v : Str} (h1 : strip v = v) (h2 : v ≠ []) :
    serializeValue v = v := by
  unfold serializeValue
  rw [if_neg]
  rintro (h | h)
  · exact h h1.symm
  · exact h2 h

theorem getLast?_cons_of_some {l : Str} {a : Char} (c : Char)
    (h : l.getLast? = some a) : (c :: l).getLast? = some a := by
  rw [List.getLast?_cons, h]
  rfl

theorem serializeValue_ends (v : Str) :
    ∃ a b, (serializeValue v).head? = some a ∧ (serializeValue v).getLast? = some b ∧
      isPySpace a = false ∧ isPySpace b = false := by
  by_cases h : strip v = v ∧ v ≠ []
  · rw [serializeValue_plain h.1 h.2]
    cases hv : v with
    | nil => exact absurd hv h.2
    | cons c t =>
      refine ⟨c, ?_⟩
      have hh : v.head? = some c := by rw [hv]; rfl
      have hh2 : (strip v).head? = some c := by rw [h.1]; exact hh
      cases hg : v.getLast? with
      | none => rw [List.getLast?_eq_none_iff] at hg; exact absurd hg h.2
      | some b =>
        have hg2 : (strip v).getLast? = some b := by rw [h.1]; exact hg
        exact ⟨b, by rw [← hv]; exact hh, by rw [← hv]; exact hg,
          head?_strip_not_space hh2, getLast?_strip_not_space hg2⟩
  · have hq : serializeValue v = '"' :: (v ++ ['"']) := by
      rcases not_and_or.mp h with h1 | h1
      · exact serializeValue_quoted (Or.inr h1)
      · exact serializeValue_quoted (Or.inl (not_not.mp h1))
    refine ⟨'"', '"', ?_, ?_, by decide, by decide⟩
    · rw [hq]; rfl
    · rw [hq, List.getLast?_cons, List.getLast?_concat]; rfl

theorem unquote_wrap (v : Str) : unquote ('"' :: (v ++ ['"'])) = v := by
  unfold unquote
  simp [List.dropLast_concat]

theorem isQuoted_wrap (v : Str) : isQuoted ('"' :: (v ++ ['"'])) = true := by
  unfold isQuoted
  rw [List.getLast?_cons, List.getLast?_concat]
  simp

theorem strip_space_cons {w : Str} {a b : Char}
    (hh : w.head? = some a) (hna : isPySpace a = false)
    (hl : w.getLast? = some b) (hnb : isPySpace b = false) :
    strip (' ' :: w) = w := by
  cases w with
  | nil => simp at hh
  | cons c t =>
    simp only [List.head?_cons, Option.some.injEq] at hh
    subst hh
    unfold strip lstrip
    rw [List.dropWhile_cons]
    rw [if_pos (by decide)]
    rw [List.dropWhile_cons, if_neg (by simp [hna])]
    exact rstrip_eq_self_of_getLast hl hnb

theorem parseValue_space_serialized {v : Str}
    (hv : v = [] ∨ strip v ≠ v ∨ isQuoted v = false) :
    parseValue (' ' :: serializeValue v) = v := by
  obtain ⟨a, b, hwh, hwl, hna, hnb⟩ := serializeValue_ends v
  unfold parseValue
  rw [strip_space_cons hwh hna hwl hnb]
  by_cases h : strip v = v ∧ v ≠ []
  · have hnq : isQuoted v = false := by
      rcases hv with h1 | h1 | h1
      · exact absurd h1 h.2
      · exact absurd h.1 h1
      · exact h1
    rw [serializeValue_plain h.1 h.2, hnq]
    simp
  · have hq : serializeValue v = '"' :: (v ++ ['"']) := by
      rcases not_and_or.mp h with h1 | h1
      · exact serializeValue_quoted (Or.inr h1)
      · exact serializeValue_quoted (Or.inl (not_not.mp h1))
    rw [hq, isQuoted_wrap]
    simp [unquote_wrap]

/-- Reparsing the serialized form of an option entry whose key satisfies
the parser's key invariants recovers the same entry. -/
theorem parseLine_kv {k v : Str} (hk1 : strip k = k) (hk2 : '=' ∉ k)
    (hk3 : k.head? ≠ some '#')
    (hv : v = [] ∨ strip v ≠ v ∨ isQuoted v = false) :
    parseLine (k ++ ' ' :: '=' :: ' ' :: serializeValue v) = ConfigEntry.option k v := by
  obtain ⟨a, b, hwh, hwl, hna, hnb⟩ := serializeValue_ends v
  have hwne : serializeValue v ≠ [] := by
    intro hw; rw [hw] at hwh; simp at hwh
  cases k with
  | nil =>
    have hstr : strip ([] ++ ' ' :: '=' :: ' ' :: serializeValue v) =
        '=' :: ' ' :: serializeValue v := by
      simp only [List.nil_append]
      unfold strip lstrip
      rw [List.dropWhile_cons, if_pos (by decide),
        List.dropWhile_cons, if_neg (by decide)]
      refine rstrip_eq_self_of_getLast ?_ hnb
      exact getLast?_cons_of_some _ (getLast?_cons_of_some _ hwl)
    unfold parseLine
    rw [hstr]
    rw [if_neg (by simp), if_neg (by simp), if_pos (by simp [List.contains])]
    rw [show breakEq ('=' :: ' ' :: serializeValue v) = ([], ' ' :: serializeValue v) by
          simp [breakEq]]
    rw [show strip ([] : Str) = [] from rfl, parseValue_space_serialized hv]
  | cons c0 k2 =>
    have hc0 : isPySpace c0 = false := by
      have : (strip (c0 :: k2)).head? = some c0 := by rw [hk1]; rfl
      exact head?_strip_not_space this
    have hc0h : c0 ≠ '#' := by
      intro he; exact hk3 (by rw [he]; rfl)
    have hlast : ((c0 :: k2) ++ ' ' :: '=' :: ' ' :: serializeValue v).getLast? = some b := by
      have hrest : (' ' :: '=' :: ' ' :: serializeValue v).getLast? = some b :=
        getLast?_cons_of_some _ (getLast?_cons_of_some _ (getLast?_cons_of_some _ hwl))
      rw [List.getLast?_append, hrest]
      rfl
    have hstr : strip ((c0 :: k2) ++ ' ' :: '=' :: ' ' :: serializeValue v) =
        (c0 :: k2) ++ ' ' :: '=' :: ' ' :: serializeValue v :=
      strip_eq_self_of_ends (by rfl) hc0 hlast hnb
    unfold parseLine
    rw [hstr]
    rw [if_neg (by simp), if_neg (by simp [hc0h]),
      if_pos (by simp [List.contains])]
    have hsplit : (c0 :: k2) ++ ' ' :: '=' :: ' ' :: serializeValue v =
        ((c0 :: k2) ++ [' ']) ++ '=' :: (' ' :: serializeValue v) := by
      simp
    rw [hsplit, breakEq_reassemble (by
      intro hm
      rcases List.mem_append.mp hm with hm1 | hm1
      · exact hk2 hm1
      · simp at hm1)]
    rw [strip_concat_space hk1 (by decide), parseValue_space_serialized hv]

theorem parseLine_blank_raw {l r : Str} (h : parseLine l = ConfigEntry.blank r) :
    r = l ∧ strip l = [] := by
  unfold parseLine at h
  split_ifs at h with h1 h2 h3 <;> simp_all

theorem parseLine_comment_raw {l r : Str} (h : parseLine l = ConfigEntry.comment r) :
    r = l := by
  unfold parseLine at h
  split_ifs at h with h1 h2 h3 <;> simp_all

theorem parseLine_option_facts {l k v : Str} (h : parseLine l = ConfigEntry.option k v) :
    strip k = k ∧ '=' ∉ k ∧ k.head? ≠ some '#' ∧
      (∀ c ∈ k, c ∈ l) ∧ (∀ c ∈ v, c ∈ l) := by
  unfold parseLine at h
  split_ifs at h with h1 h2 h3 <;> simp_all
  obtain ⟨hk, hv⟩ := h
  have hmem : '=' ∈ strip l := by
    simpa [List.contains] using h3
  obtain ⟨hdec, hnmem⟩ := breakEq_decomp hmem
  refine ⟨?_, ?_, ?_, ?_, ?_⟩
  · rw [← hk]; exact strip_idem _
  · intro hm
    exact hnmem (mem_strip (hk ▸ hm))
  · cases ha : (breakEq (strip l)).1 with
    | nil => rw [← hk, ha, strip_nil]; simp
    | cons c0 a2 =>
      have hhead : (strip l).head? = some c0 := by
        conv_lhs => rw [hdec, ha]
        rfl
      have hc0 : isPySpace c0 = false := head?_strip_not_space hhead
      have hc0h : c0 ≠ '#' := by
        intro he
        rw [he] at hhead
        exact h2 hhead
      rw [← hk, ha]
      unfold strip
      rw [lstrip_cons_not_space hc0]
      obtain ⟨t, hdec2, -⟩ := rstrip_decomp (c0 :: a2)
      cases hr : rstrip (c0 :: a2) with
      | nil => simp
      | cons d k3 =>
        rw [hr] at hdec2
        have : c0 = d := by
          have := congrArg List.head? hdec2
          simpa using this
        simp [← this, hc0h]
  · intro c hc
    rw [← hk] at hc
    have hc2 : c ∈ (breakEq (strip l)).1 := mem_strip hc
    have : c ∈ strip l := by
      rw [hdec]
      exact List.mem_append.mpr (Or.inl hc2)
    exact mem_strip this
  · intro c hc
    rw [← hv] at hc
    unfold parseValue at hc
    have hc2 : c ∈ strip (breakEq (strip l)).2 := by
      by_cases hq : isQuoted (strip (breakEq (strip l)).2) = true
      · rw [if_pos hq] at hc
        unfold unquote at hc
        exact List.mem_of_mem_drop ((List.dropLast_sublist _).mem hc)
      · rw [if_neg hq] at hc
        exact hc
    have hc3 : c ∈ (breakEq (strip l)).2 := mem_strip hc2
    have : c ∈ strip l := by
      rw [hdec]
      exact List.mem_append.mpr (Or.inr (by simp [hc3]))
    exact mem_strip this

/-- Serializing a parsed line and reparsing gives the same entry, as long
as the entry's value does not spuriously look quoted. -/
theorem parseLine_emit_stable {l : Str} (hv : valueOK (parseLine l) = true) :
    parseLine (entryLine (parseLine l)) = parseLine l := by
  cases he : parseLine l with
  | blank r =>
    obtain ⟨hr, -⟩ := parseLine_blank_raw he
    rw [show entryLine (ConfigEntry.blank r) = r from rfl, hr]
    rw [hr] at he
    exact he
  | comment r =>
    have hr := parseLine_comment_raw he
    rw [show entryLine (ConfigEntry.comment r) = r from rfl, hr]
    rw [hr] at he
    exact he
  | option k v =>
    obtain ⟨hk1, hk2, hk3, -, -⟩ := parseLine_option_facts he
    rw [he] at hv
    rw [show entryLine (ConfigEntry.option k v) =
          k ++ ' ' :: '=' :: ' ' :: serializeValue v from rfl]
    exact parseLine_kv hk1 hk2 hk3 (valueOK_option hv)

/-- The serialized line of a parsed entry stays boundary-free. -/
theorem bdFree_entryLine {l : Str} (hl : bdFree l) :
    bdFree (entryLine (parseLine l)) := by
  cases he : parseLine l with
  | blank r =>
    obtain ⟨rfl, -⟩ := parseLine_blank_raw he
    exact hl
  | comment r =>
    have := parseLine_comment_raw he
    subst this
    exact hl
  | option k v =>
    obtain ⟨-, -, -, hkm, hvm⟩ := parseLine_option_facts he
    intro c hc
    rw [show entryLine (ConfigEntry.option k v) =
          k ++ ' ' :: '=' :: ' ' :: serializeValue v from rfl] at hc
    rcases List.mem_append.mp hc with hc1 | hc1
    · exact hl c (hkm c hc1)
    · rcases List.mem_cons.mp hc1 with rfl | hc2
      · decide
      · rcases List.mem_cons.mp hc2 with rfl | hc3
        · decide
        · rcases List.mem_cons.mp hc3 with rfl | hc4
          · decide
          · by_cases h : strip v = v ∧ v ≠ []
            · rw [serializeValue_plain h.1 h.2] at hc4
              exact hl c (hvm c hc4)
            · have hq : serializeValue v = '"' :: (v ++ ['"']) := by
                rcases not_and_or.mp h with h1 | h1
                · exact serializeValue_quoted (Or.inr h1)
                · exact serializeValue_quoted (Or.inl (not_not.mp h1))
              rw [hq] at hc4
              rcases List.mem_cons.mp hc4 with rfl | hc5
              · decide
              · rcases List.mem_append.mp hc5 with hc6 | hc6
                · exact hl c (hvm c hc6)
                · simp at hc6
                  subst hc6
                  decide

/-! ### The shape of "simple unquoted `key = value` lines" -/

/-- A simple unquoted option line `k ++ " = " ++ v`: key non-empty,
already stripped, `'='`-free (guaranteed by `breakEq`), not
comment-like; value non-empty, already stripped, not quote-wrapped. -/
def SimpleOpt (l : Str) : Prop :=
  '=' ∈ l ∧
  (breakEq l).1 ≠ [] ∧ (breakEq l).1.getLast? = some ' ' ∧
  (breakEq l).1.dropLast ≠ [] ∧
  strip ((breakEq l).1.dropLast) = (breakEq l).1.dropLast ∧
  ((breakEq l).1.dropLast).head? ≠ some '#' ∧
  (breakEq l).2.head? = some ' ' ∧
  (breakEq l).2.tail ≠ [] ∧
  strip ((breakEq l).2.tail) = (breakEq l).2.tail ∧
  isQuoted ((breakEq l).2.tail) = false

/-- A line in the scope of the round-trip claim: boundary-free and one of
blank, comment, or simple unquoted `key = value`. -/
def goodLine (l : Str) : Prop :=
  bdFree l ∧ (strip l = [] ∨ (strip l).head? = some '#' ∨ SimpleOpt l)

instance (l : Str) : Decidable (bdFree l) := by
  unfold bdFree
  infer_instance

instance (l : Str) : Decidable (SimpleOpt l) := by
  unfold SimpleOpt
  infer_instance

instance (l : Str) : Decidable (goodLine l) := by
  unfold goodLine
  infer_instance

theorem SimpleOpt_shape {l : Str} (h : SimpleOpt l) :
    ∃ k v, l = k ++ ' ' :: '=' :: ' ' :: v ∧
      strip k = k ∧ k ≠ [] ∧ '=' ∉ k ∧ k.head? ≠ some '#' ∧
      strip v = v ∧ v ≠ [] ∧ isQuoted v = false := by
  obtain ⟨hmem, ha1, ha2, hk1, hk2, hk3, hb1, hv1, hv2, hv3⟩ := h
  obtain ⟨hdec, hnmem⟩ := breakEq_decomp hmem
  refine ⟨(breakEq l).1.dropLast, (breakEq l).2.tail, ?_, hk2, hk1, ?_, hk3, hv2, hv1, hv3⟩
  · obtain ⟨l2, hl2⟩ := getLast?_some_decomp ha2
    have hkd : (breakEq l).1.dropLast = l2 := by rw [hl2, List.dropLast_concat]
    have hb : (breakEq l).2 = ' ' :: (breakEq l).2.tail :=
      (List.cons_head?_tail (Option.mem_def.mpr hb1)).symm
    calc l = (breakEq l).1 ++ '=' :: (breakEq l).2 := hdec
      _ = (l2 ++ [' ']) ++ '=' :: (' ' :: (breakEq l).2.tail) := by
          rw [← hl2, ← hb]
      _ = (breakEq l).1.dropLast ++ ' ' :: '=' :: ' ' :: (breakEq l).2.tail := by
          rw [hkd]; simp
  · intro hm
    exact hnmem ((List.dropLast_sublist _).mem hm)

theorem entryLine_parseLine_of_good {l : Str} (hg : goodLine l) :
    entryLine (parseLine l) = l := by
  obtain ⟨hbf, hcase⟩ := hg
  rcases hcase with h | h | h
  · rw [show parseLine l = ConfigEntry.blank l by
        unfold parseLine; rw [if_pos h]]
    rfl
  · have h0 : strip l ≠ [] := by
      intro he; rw [he] at h; simp at h
    rw [show parseLine l = ConfigEntry.comment l by
        unfold parseLine; rw [if_neg h0, if_pos h]]
    rfl
  · obtain ⟨k, v, rfl, hk1, hkne, hk2, hk3, hv1, hv2, hv3⟩ := SimpleOpt_shape h
    have hser : serializeValue v = v := serializeValue_plain hv1 hv2
    have hpl := parseLine_kv (k := k) (v := v) hk1 hk2 hk3 (Or.inr (Or.inr hv3))
    rw [hser] at hpl
    rw [hpl]
    rw [show entryLine (ConfigEntry.option k v) =
          k ++ ' ' :: '=' :: ' ' :: serializeValue v from rfl, hser]

/-- When the emitted lines are boundary-free, non-empty, and the final
one is a non-empty line, `to_text` produces exactly the
newline-terminated join of those lines. -/
theorem to_text_eq_joinTerm {c : GhosttyConfig} {lines : List Str}
    (hemit : c.entries.map entryLine = lines)
    (hbf : ∀ l ∈ lines, bdFree l)
    (hne : lines ≠ [])
    (hlast : ∀ l, lines.getLast? = some l → l ≠ []) :
    to_text c = joinTerm lines := by
  unfold to_text
  rw [hemit]
  obtain ⟨lst, hlst⟩ : ∃ lst, lines.getLast? = some lst := by
    cases hl : lines.getLast? with
    | none => exact absurd (List.getLast?_eq_none_iff.mp hl) hne
    | some x => exact ⟨x, rfl⟩
  have hlstne := hlast lst hlst
  have hjne : joinNL lines ≠ [] := joinNL_ne_nil hlst hlstne
  have hjl : (joinNL lines).getLast? = lst.getLast? := joinNL_getLast? hlst hlstne
  have hnn : (joinNL lines).getLast? ≠ some '\n' := by
    rw [hjl]
    cases hg : lst.getLast? with
    | none => simp
    | some d =>
      have hd : isLineBoundary d = false :=
        hbf lst (getLast?_some_mem hlst) d (getLast?_some_mem hg)
      intro hcon
      simp only [Option.some.injEq] at hcon
      rw [hcon] at hd
      exact absurd hd (by decide)
  rw [if_pos ⟨hjne, hnn⟩, joinNL_concat_newline hne]

/-! ### Reparse stability of serialized output -/

theorem parse_config_to_text_stable {text : Str}
    (h1 : ∀ e ∈ (parse_config text).entries, valueOK e = true)
    (hne : (parse_config text).entries ≠ [])
    (hlast : ∀ e, (parse_config text).entries.getLast? = some e → entryLine e ≠ []) :
    parse_config (to_text (parse_config text)) = parse_config text := by
  have hbf0 : ∀ l ∈ splitlines text, bdFree l := splitlines_bdFree text
  have hentries : (parse_config text).entries = (splitlines text).map parseLine := rfl
  have hbf1 : ∀ m ∈ (parse_config text).entries.map entryLine, bdFree m := by
    intro m hm
    rw [hentries, List.map_map] at hm
    obtain ⟨l, hl, rfl⟩ := List.mem_map.mp hm
    exact bdFree_entryLine (hbf0 l hl)
  have hne1 : (parse_config text).entries.map entryLine ≠ [] := by
    intro hc
    exact hne (List.map_eq_nil.mp hc)
  have hlast1 : ∀ m, ((parse_config text).entries.map entryLine).getLast? = some m →
      m ≠ [] := by
    intro m hm
    rw [List.getLast?_map] at hm
    cases hg : (parse_config text).entries.getLast? with
    | none =>
      rw [hg] at hm
      exact Option.noConfusion (show (none : Option Str) = some m from hm)
    | some e =>
      rw [hg] at hm
      injection hm with hm2
      rw [← hm2]
      exact hlast e hg
  have htt : to_text (parse_config text) =
      joinTerm ((parse_config text).entries.map entryLine) :=
    to_text_eq_joinTerm rfl hbf1 hne1 hlast1
  have hstable : ((parse_config text).entries.map entryLine).map parseLine =
      (parse_config text).entries := by
    rw [hentries, List.map_map, List.map_map]
    refine List.map_congr_left ?_
    intro l hl
    have hv : valueOK (parseLine l) = true := by
      refine h1 (parseLine l) ?_
      rw [hentries]
      exact List.mem_map.mpr ⟨l, hl, rfl⟩
    exact parseLine_emit_stable hv
  calc parse_config (to_text (parse_config text))
      = parse_config (joinTerm ((parse_config text).entries.map entryLine)) := by
        rw [htt]
    _ = ⟨(splitlines (joinTerm ((parse_config text).entries.map entryLine))).map
          parseLine⟩ := rfl
    _ = ⟨((parse_config text).entries.map entryLine).map parseLine⟩ := by
        rw [splitlines_joinTerm hbf1]
    _ = ⟨(parse_config text).entries⟩ := by rw [hstable]
    _ = parse_config text := rfl

/-! ### Spec-side serializer (for the `to_text` format claim) -/

/-- The line the specification prescribes for one entry: `raw` verbatim,
or `"{key} = {value}"` with the value double-quoted exactly when it is
the empty string or differs from its own stripped form. -/
def entryLineSpec : ConfigEntry → Str
  | ConfigEntry.comment raw => raw
  | ConfigEntry.blank raw => raw
  | ConfigEntry.option k v =>
    k ++ (' ' :: '=' :: ' ' ::
      (if v = [] ∨ v ≠ strip v then '"' :: (v ++ ['"']) else v))

/-- The serializer as the specification describes it: emit one line per
entry, join with single newline separators, and append exactly one
trailing newline when the joined result is non-empty and does not
already end in a newline. -/
def to_text_spec (c : GhosttyConfig) : Str :=
  if List.intercalate ['\n'] (c.entries.map entryLineSpec) ≠ [] ∧
      (List.intercalate ['\n'] (c.entries.map entryLineSpec)).getLast? ≠ some '\n' then
    List.intercalate ['\n'] (c.entries.map entryLineSpec) ++ ['\n']
  else List.intercalate ['\n'] (c.entries.map entryLineSpec)

theorem joinNL_eq_intercalate : ∀ ls : List Str, joinNL ls = List.intercalate ['\n'] ls := by
  intro ls
  induction ls with
  | nil => rfl
  | cons l ls2 ih =>
    cases ls2 with
    | nil => simp [joinNL, List.intercalate, List.intersperse]
    | cons m ls3 =>
      rw [show joinNL (l :: m :: ls3) = l ++ '\n' :: joinNL (m :: ls3) from rfl, ih]
      simp [List.intercalate, List.intersperse]

theorem filterMap_filter_other {k k2 : Str} (hne : k2 ≠ k) :
    ∀ es : List ConfigEntry,
      (es.filter (fun e => !(matchOpt k e).isSome)).filterMap (matchOpt k2) =
        es.filterMap (matchOpt k2) := by
  intro es
  induction es with
  | nil => rfl
  | cons e t ih =>
    rw [List.filter_cons]
    cases hf : matchOpt k e with
    | none =>
      rw [if_pos (show (!(none : Option Str).isSome) = true from rfl)]
      rw [List.filterMap_cons, List.filterMap_cons]
      cases hf2 : matchOpt k2 e with
      | none => exact ih
      | some v => rw [ih]
    | some v =>
      have h2 : matchOpt k2 e = none := by
        cases e with
        | option kk vv =>
          simp only [matchOpt] at hf ⊢
          by_cases hkk : kk = k
          · subst hkk
            rw [if_neg (fun hc : kk = k2 => hne hc.symm)]
          · rw [if_neg hkk] at hf
            exact Option.noConfusion hf
        | comment raw => rfl
        | blank raw => rfl
      rw [if_neg (show ¬((!(some v : Option Str).isSome) = true) by simp)]
      rw [ih, List.filterMap_cons, h2]

/-! ## Claims -/

/-- C1 counterexample: the text `"a = 1\n\n"` consists of a simple
unquoted option line followed by a blank line, yet serializing its parse
drops the trailing blank line, so the round-trip claim as stated is
false. -/
theorem C1_counterexample :
    ("a = 1\n\n".toList : Str) = joinTerm [("a = 1".toList : Str), []] ∧
    (∀ l ∈ [("a = 1".toList : Str), []], goodLine l) ∧
    to_text (parse_config ("a = 1\n\n".toList)) ≠ ("a = 1\n\n".toList) := by
  refine ⟨by decide, by decide, by decide⟩

/-- C1 (amended): for every text consisting only of comment lines, blank
lines, and simple unquoted `key = value` lines whose values have no
leading or trailing whitespace, whose final line is additionally
non-empty, serializing the parsed document returns the original text
exactly; in particular the claim's own example round-trips. -/
theorem C1_roundtrip_amended (lines : List Str)
    (hg : ∀ l ∈ lines, goodLine l)
    (hlast : ∀ l, lines.getLast? = some l → l ≠ []) :
    to_text (parse_config (joinTerm lines)) = joinTerm lines := by
  have hbf : ∀ l ∈ lines, bdFree l := fun l hl => (hg l hl).1
  have hpc : parse_config (joinTerm lines) = ⟨lines.map parseLine⟩ := by
    unfold parse_config
    rw [splitlines_joinTerm hbf]
  by_cases hln : lines = []
  · subst hln
    decide
  · rw [hpc]
    have hemit : (⟨lines.map parseLine⟩ : GhosttyConfig).entries.map entryLine
        = lines := by
      show (lines.map parseLine).map entryLine = lines
      rw [List.map_map]
      have hcg : ∀ l ∈ lines, (entryLine ∘ parseLine) l = id l := fun l hl =>
        entryLine_parseLine_of_good (hg l hl)
      rw [List.map_congr_left hcg, List.map_id]
    exact to_text_eq_joinTerm hemit hbf hln hlast

/-- C1 witness: the amended round-trip applied to the claim's example
`"# hi\n\nfont-size = 1\n"`. -/
theorem C1_roundtrip_amended_witness :
    to_text (parse_config ("# hi\n\nfont-size = 1\n".toList)) =
      ("# hi\n\nfont-size = 1\n".toList) := by
  have h := C1_roundtrip_amended [("# hi".toList : Str), [], ("font-size = 1".toList)]
    (by decide) (by decide)
  rw [show joinTerm [("# hi".toList : Str), [], ("font-size = 1".toList)] =
        ("# hi\n\nfont-size = 1\n".toList) by decide] at h
  exact h

/-- C2 counterexample: serialize-after-parse is not idempotent for every
text.  A trailing run of empty lines loses one line per pass
(`"\n\n"`), and an unquoted value that itself looks quoted is stripped
again on the second pass (`"x = \"'a'\"\n"`). -/
theorem C2_counterexample :
    to_text (parse_config (to_text (parse_config ("\n\n".toList)))) ≠
      to_text (parse_config ("\n\n".toList)) ∧
    to_text (parse_config (to_text (parse_config ("x = \"'a'\"\n".toList)))) ≠
      to_text (parse_config ("x = \"'a'\"\n".toList)) := by
  refine ⟨by decide, by decide⟩

/-- C2 (amended): serialize-after-parse is idempotent for every text such
that (a) no parsed option value that is non-empty and free of edge
whitespace both starts and ends with the same quote character, and
(b) unless the document has at most one entry, its final entry does not
serialize to an empty line. -/
theorem C2_idempotent_amended (text : Str)
    (h1 : ∀ e ∈ (parse_config text).entries, valueOK e = true)
    (h2 : (parse_config text).entries.length ≤ 1 ∨
      ∀ e, (parse_config text).entries.getLast? = some e → entryLine e ≠ []) :
    to_text (parse_config (to_text (parse_config text))) =
      to_text (parse_config text) := by
  by_cases hne : (parse_config text).entries = []
  · have hempty : to_text (parse_config text) = [] := by
      unfold to_text
      rw [hne]
      simp [joinNL]
    rw [hempty]
    decide
  · rcases h2 with hlen | hl
    · obtain ⟨e, he⟩ : ∃ e, (parse_config text).entries = [e] := by
        cases hc : (parse_config text).entries with
        | nil => exact absurd hc hne
        | cons e0 t =>
          cases t with
          | nil => exact ⟨e0, rfl⟩
          | cons e1 t2 => rw [hc] at hlen; simp at hlen
      by_cases hee : entryLine e = []
      · have hempty : to_text (parse_config text) = [] := by
          unfold to_text
          rw [he]
          simp [joinNL, hee]
        rw [hempty]
        decide
      · have hlast : ∀ e2, (parse_config text).entries.getLast? = some e2 →
            entryLine e2 ≠ [] := by
          intro e2 he2
          rw [he] at he2
          simp at he2
          rw [← he2]
          exact hee
        rw [parse_config_to_text_stable h1 hne hlast]
    · rw [parse_config_to_text_stable h1 hne hl]

/-- C2 witness: idempotence at the benign example `"# hi\nfont-size = 1\n"`. -/
theorem C2_idempotent_amended_witness :
    to_text (parse_config (to_text (parse_config ("# hi\nfont-size = 1\n".toList)))) =
      to_text (parse_config ("# hi\nfont-size = 1\n".toList)) := by
  refine C2_idempotent_amended ("# hi\nfont-size = 1\n".toList) (by decide) (Or.inr ?_)
  intro e he
  rw [show (parse_config ("# hi\nfont-size = 1\n".toList)).entries.getLast? =
        some (ConfigEntry.option ("font-size".toList) ("1".toList)) by decide] at he
  injection he with he2
  rw [← he2]
  decide

/-- C3 counterexample: with duplicate keys, `set` writes the first
occurrence but `get` reads the last, so set-then-get returns the old
later value, not the one just set. -/
theorem C3_counterexample :
    get (set (parse_config ("a = 1\na = 2".toList)) ("a".toList) ("9".toList))
        ("a".toList) = some ("2".toList) ∧
      some ("2".toList) ≠ some ("9".toList) := by
  refine ⟨by decide, by decide⟩

/-- C3 (amended): for every document in which at most one option entry
has key `k`, after `d.set(k, v)` the lookup `d.get(k)` returns `v`. -/
theorem C3_set_get_amended (d : GhosttyConfig) (k v : Str)
    (h : (get_all d k).length ≤ 1) : get (set d k v) k = some v := by
  rcases first_match_decomp k d.entries with hno | ⟨es1, w, es2, hdec, hcl⟩
  · unfold get set
    rw [setEntries_no_match v hno, List.reverse_append]
    simp [List.findSome?_cons, matchOpt]
  · have hga : get_all d k = w :: es2.filterMap (matchOpt k) := by
      unfold get_all
      rw [hdec, List.filterMap_append, filterMap_none_of_all hcl]
      simp [List.filterMap_cons, matchOpt]
    have hnil : es2.filterMap (matchOpt k) = [] := by
      rw [hga] at h
      simp only [List.length_cons] at h
      exact List.length_eq_zero.mp (by omega)
    have hes2 : ∀ e ∈ es2, matchOpt k e = none := by
      intro e he
      cases hf : matchOpt k e with
      | none => rfl
      | some x =>
        have hx : x ∈ es2.filterMap (matchOpt k) :=
          List.mem_filterMap.mpr ⟨e, he, hf⟩
        rw [hnil] at hx
        simp at hx
    unfold get set
    rw [show d.entries = es1 ++ ConfigEntry.option k w :: es2 from hdec,
      setEntries_first v w es2 hcl]
    rw [List.reverse_append, List.reverse_cons, List.findSome?_append,
      List.findSome?_append]
    have hnone : es2.reverse.findSome? (matchOpt k) = none :=
      List.findSome?_eq_none.mpr (fun e he => hes2 e (List.mem_reverse.mp he))
    rw [hnone]
    simp [List.findSome?_cons, matchOpt]

/-- C3 witness: set-then-get on a duplicate-free document. -/
theorem C3_set_get_amended_witness :
    get (set (parse_config ("a = 1".toList)) ("a".toList) ("2".toList)) ("a".toList) =
      some ("2".toList) :=
  C3_set_get_amended (parse_config ("a = 1".toList)) ("a".toList) ("2".toList)
    (by decide)

/-- C4: `get` resolves to the last matching option entry in sequence
order (`None`/`none` when absent), which is exactly the last element of
the forward-ordered, duplicate-preserving `get_all` list; in particular
`parse("a = 1\na = 2").get("a") == "2"`. -/
theorem C4_get_last_occurrence :
    (∀ (d : GhosttyConfig) (k : Str), get d k = (get_all d k).getLast?) ∧
    get (parse_config ("a = 1\na = 2".toList)) ("a".toList) = some ("2".toList) := by
  constructor
  · intro d k
    exact findSome?_reverse_eq_getLast?_filterMap (matchOpt k) d.entries
  · decide

/-- C5: `set` mutates the first matching option entry in forward order,
leaving all other entries (including later same-key ones) unchanged, and
appends a single new entry at the end when no option entry matches. -/
theorem C5_set_semantics (k v : Str) :
    (∀ (es1 : List ConfigEntry) (w : Str) (es2 : List ConfigEntry),
      (∀ e ∈ es1, matchOpt k e = none) →
      (set ⟨es1 ++ ConfigEntry.option k w :: es2⟩ k v).entries =
        es1 ++ ConfigEntry.option k v :: es2) ∧
    (∀ es : List ConfigEntry, (∀ e ∈ es, matchOpt k e = none) →
      (set ⟨es⟩ k v).entries = es ++ [ConfigEntry.option k v]) := by
  constructor
  · intro es1 w es2 h
    exact setEntries_first v w es2 h
  · intro es h
    exact setEntries_no_match v h

/-- C5 witness: both branches of `set` at concrete documents. -/
theorem C5_set_semantics_witness :
    (set ⟨[ConfigEntry.comment ("# c".toList),
           ConfigEntry.option ("a".toList) ("1".toList),
           ConfigEntry.option ("a".toList) ("2".toList)]⟩ ("a".toList)
        ("9".toList)).entries =
      [ConfigEntry.comment ("# c".toList),
       ConfigEntry.option ("a".toList) ("9".toList),
       ConfigEntry.option ("a".toList) ("2".toList)] ∧
    (set ⟨[ConfigEntry.option ("b".toList) ("1".toList)]⟩ ("a".toList)
        ("9".toList)).entries =
      [ConfigEntry.option ("b".toList) ("1".toList),
       ConfigEntry.option ("a".toList) ("9".toList)] := by
  constructor
  · have h := (C5_set_semantics ("a".toList) ("9".toList)).1
      [ConfigEntry.comment ("# c".toList)] ("1".toList)
      [ConfigEntry.option ("a".toList) ("2".toList)] (by decide)
    simpa using h
  · have h := (C5_set_semantics ("a".toList) ("9".toList)).2
      [ConfigEntry.option ("b".toList) ("1".toList)] (by decide)
    simpa using h

/-- C6: `remove` deletes exactly the matching option entries, keeps every
other entry in its original relative order, empties `get_all` for the
removed key, and leaves `get_all` for every other key unchanged. -/
theorem C6_remove_semantics (d : GhosttyConfig) (k : Str) :
    List.Sublist (remove d k).entries d.entries ∧
    (∀ e ∈ (remove d k).entries, matchOpt k e = none) ∧
    (∀ e ∈ d.entries, matchOpt k e = none → e ∈ (remove d k).entries) ∧
    get_all (remove d k) k = [] ∧
    (∀ k2, k2 ≠ k → get_all (remove d k) k2 = get_all d k2) := by
  have hmem : ∀ e ∈ (remove d k).entries, matchOpt k e = none := by
    intro e he
    have h2 := (List.mem_filter.mp he).2
    cases hf : matchOpt k e with
    | none => rfl
    | some x => rw [hf] at h2; simp at h2
  refine ⟨List.filter_sublist _, hmem, ?_, ?_, ?_⟩
  · intro e he hf
    refine List.mem_filter.mpr ⟨he, ?_⟩
    rw [hf]
    rfl
  · exact filterMap_none_of_all hmem
  · intro k2 hk2
    exact filterMap_filter_other hk2 d.entries

/-- C6 witness: removal at a concrete document, covering the
hypothesis-bearing conjuncts. -/
theorem C6_remove_semantics_witness :
    ConfigEntry.option ("b".toList) ("2".toList) ∈
      (remove (parse_config ("a=1\nb=2\na=3".toList)) ("a".toList)).entries ∧
    get_all (remove (parse_config ("a=1\nb=2\na=3".toList)) ("a".toList))
      ("b".toList) = [("2".toList)] := by
  constructor
  · exact (C6_remove_semantics (parse_config ("a=1\nb=2\na=3".toList))
      ("a".toList)).2.2.1 (ConfigEntry.option ("b".toList) ("2".toList))
      (by decide) (by decide)
  · exact ((C6_remove_semantics (parse_config ("a=1\nb=2\na=3".toList))
      ("a".toList)).2.2.2.2 ("b".toList) (by decide)).trans (by decide)

/-- C7: `set_repeatable` equals `remove` followed by appending one new
option entry per supplied value, in order, at the end of the entry
sequence. -/
theorem C7_set_repeatable_semantics (d : GhosttyConfig) (k : Str) (vs : List Str) :
    (set_repeatable d k vs).entries =
      (remove d k).entries ++ vs.map (ConfigEntry.option k) := by
  unfold set_repeatable
  exact foldl_append_entries k vs (remove d k).entries

/-- C8: `modified_keys` is exactly the set of keys whose `get_all` lists
differ between the two documents; the claim's own example computes to
`{"theme"}`. -/
theorem C8_modified_keys_iff :
    (∀ (c orig : GhosttyConfig) (k : Str),
      k ∈ modified_keys c orig ↔ get_all c k ≠ get_all orig k) ∧
    modified_keys
      (set (parse_config ("font-size = 14\ntheme = Dracula".toList)) ("theme".toList)
        ("Catppuccin Mocha".toList))
      (parse_config ("font-size = 14\ntheme = Dracula".toList)) =
      {("theme".toList : Str)} := by
  constructor
  · intro c orig k
    unfold modified_keys
    rw [Finset.mem_filter]
    constructor
    · rintro ⟨-, h⟩
      exact h
    · intro h
      refine ⟨?_, h⟩
      rw [Finset.mem_union, List.mem_toFinset, List.mem_toFinset]
      by_contra hc
      push_neg at hc
      exact h (by rw [get_all_nil_of_not_mem_optionKeys hc.1,
        get_all_nil_of_not_mem_optionKeys hc.2])
  · decide

/-- C9: `to_text` emits raw text for comments/blanks and
`"{key} = {value}"` for options with the value double-quoted exactly
when empty or carrying edge whitespace, joins with single newlines,
appends exactly one trailing newline when the join is non-empty and not
already newline-terminated, and serializes the empty document to the
empty string. -/
theorem C9_to_text_format :
    (∀ d : GhosttyConfig, to_text d = to_text_spec d) ∧
    to_text ⟨[]⟩ = [] := by
  constructor
  · intro d
    have hmap : d.entries.map entryLine = d.entries.map entryLineSpec := by
      refine List.map_congr_left ?_
      intro e he
      cases e with
      | comment raw => rfl
      | blank raw => rfl
      | option k v =>
        show k ++ (' ' :: '=' :: ' ' :: serializeValue v) =
          k ++ (' ' :: '=' :: ' ' ::
            (if v = [] ∨ v ≠ strip v then '"' :: (v ++ ['"']) else v))
        have : serializeValue v =
            (if v = [] ∨ v ≠ strip v then '"' :: (v ++ ['"']) else v) := by
          unfold serializeValue
          by_cases h1 : v ≠ strip v ∨ v = []
          · rw [if_pos h1, if_pos (Or.symm h1)]
          · rw [if_neg h1, if_neg (fun hc => h1 (Or.symm hc))]
        rw [this]
    unfold to_text to_text_spec
    rw [hmap, joinNL_eq_intercalate]
  · decide

/-- C10: a trimmed candidate value consisting of a lone double quote or a
lone apostrophe passes the quote test (its first and last character are
the same quote), so the parsed option value is the empty string. -/
theorem C10_lone_quote (l a b : Str)
    (h1 : strip l ≠ []) (h2 : (strip l).head? ≠ some '#')
    (h3 : (strip l).contains '=' = true)
    (hab : breakEq (strip l) = (a, b))
    (hv : strip b = [('"' : Char)] ∨ strip b = [('\'' : Char)]) :
    parseLine l = ConfigEntry.option (strip a) [] := by
  unfold parseLine
  rw [if_neg h1, if_neg h2, if_pos h3, hab]
  show ConfigEntry.option (strip a) (parseValue b) = ConfigEntry.option (strip a) []
  have hval : parseValue b = [] := by
    unfold parseValue
    rcases hv with h | h <;> rw [h] <;> decide
  rw [hval]

/-- C10 witness: parsing the line `k = "` yields the option `k` with the
empty value. -/
theorem C10_lone_quote_witness :
    parseLine ("k = \"".toList) = ConfigEntry.option ("k".toList) [] := by
  have h := C10_lone_quote ("k = \"".toList) ("k ".toList) (" \"".toList)
    (by decide) (by decide) (by decide) (by decide) (Or.inl (by decide))
  rw [h]
  decide

end GhostCfg
